import Mathlib

/-!
# Verification of the byrec event-sourcing core

Shallow embedding of the byrec repository's core (`eventAggregator.ts`,
`eventStore.ts`) and proofs about it.

Conventions of the embedding:
* JavaScript numbers used as event ids and range endpoints are embedded as `Int`
  (all arithmetic performed by the source on them is exact integer arithmetic
  within the safe range).
* IndexedDB object stores are embedded as explicit state (the event log as a
  list of records in ascending key order, the aggregate sub-store as an abstract
  value of type `Agg` transformed by the injected fold function).
* Fallible asynchronous code is embedded with `Except`: a rejected promise
  (or a thrown error) is `Except.error`.
* The consumer-supplied fold (`processEvent` in the source, an abstract method)
  is a parameter `fold : Agg → StoredEvent V → Except Unit (Agg × Option A)`;
  `Except.error` embeds a fold that throws, `Option A` is the
  `A | null` result.
-/

/-- Decidable equality for `Except`, used to evaluate the embedding on
concrete inputs. -/
instance {ε α : Type} [DecidableEq ε] [DecidableEq α] : DecidableEq (Except ε α) :=
  fun x y =>
    match x, y with
    | .ok a, .ok b =>
      if h : a = b then .isTrue (congrArg Except.ok h)
      else .isFalse (fun hc => h (Except.ok.inj hc))
    | .error a, .error b =>
      if h : a = b then .isTrue (congrArg Except.error h)
      else .isFalse (fun hc => h (Except.error.inj hc))
    | .ok _, .error _ => .isFalse (fun hc => Except.noConfusion hc)
    | .error _, .ok _ => .isFalse (fun hc => Except.noConfusion hc)

/-- Embeds `interface ProcessedRange { start: number; end: number }` from
`eventAggregator.ts`.  The source field `end` is a Lean keyword, so it is
called `stop` here. -/
structure ProcessedRange where
  start : Int
  stop : Int
deriving DecidableEq

/-- Embeds `interface StoredEvent<V> { localId: number; globalId: string; value: V }`
from `types.ts`. -/
structure StoredEvent (V : Type) where
  localId : Int
  globalId : String
  value : V
deriving DecidableEq

/-- `Number.MAX_SAFE_INTEGER`. -/
def maxSafeInteger : Int := 9007199254740991

/-- Membership of an integer in the set covered by a list of ranges
(each range is a closed interval `[start, stop]`). -/
def memB (L : List ProcessedRange) (n : Int) : Bool :=
  L.any (fun r => decide (r.start ≤ n ∧ n ≤ r.stop))

/-- Every range of the list is proper (`start ≤ stop`). -/
def properB (L : List ProcessedRange) : Bool :=
  L.all (fun r => decide (r.start ≤ r.stop))

/-- `true` when the head of the list (if any) starts strictly more than one
past `r.stop`, i.e. `r` is separated from it (non-overlapping and
non-adjacent). -/
def sepHead (r : ProcessedRange) : List ProcessedRange → Bool
  | [] => true
  | s :: _ => decide (r.stop + 1 < s.start)

/-- Well-formedness of a coverage list: every range proper, and consecutive
ranges separated (sorted ascending, pairwise non-overlapping and
non-adjacent).  This is the documented invariant of the coverage metadata. -/
def wfB : List ProcessedRange → Bool
  | [] => true
  | r :: rest => decide (r.start ≤ r.stop) && sepHead r rest && wfB rest

/-- `true` when the head of the list (if any) has a start at least `r.start`. -/
def leHead (r : ProcessedRange) : List ProcessedRange → Bool
  | [] => true
  | s :: _ => decide (r.start ≤ s.start)

/-- The list is sorted ascending by `start`. -/
def sortedB : List ProcessedRange → Bool
  | [] => true
  | r :: rest => leHead r rest && sortedB rest

/-- The start of the first range, `0` for the empty list. -/
def headStart : List ProcessedRange → Int
  | [] => 0
  | r :: _ => r.start

/-- Stable insertion of a range into a list sorted ascending by `start`. -/
def insertSorted (r : ProcessedRange) : List ProcessedRange → List ProcessedRange
  | [] => [r]
  | x :: xs => if r.start ≤ x.start then r :: x :: xs else x :: insertSorted r xs

/-- Embeds `allRanges.sort((a, b) => a.start - b.start)` from
`updateProcessedRanges`: a stable sort ascending by `start`. -/
def sortRanges : List ProcessedRange → List ProcessedRange
  | [] => []
  | x :: xs => insertSorted x (sortRanges xs)

/-- Embeds the sweep loop of `updateProcessedRanges` (`eventAggregator.ts`
lines 256-268): walk the sorted list keeping a current range, merging the next
range into it whenever `currentRange.end + 1 >= nextRange.start`, taking the
maximum of the ends. -/
def mergeSweep (cur : ProcessedRange) : List ProcessedRange → List ProcessedRange
  | [] => [cur]
  | next :: rest =>
    if cur.stop + 1 ≥ next.start then
      mergeSweep ⟨cur.start, max cur.stop next.stop⟩ rest
    else
      cur :: mergeSweep next rest

/-- Embeds `EventAggregator.updateProcessedRanges(start, end)`
(`eventAggregator.ts` lines 250-271): append the new range, sort all ranges
ascending by `start`, then sweep-merge overlapping or adjacent ranges.
The `[]` branch of the match is unreachable (the sorted list contains at
least the new range). -/
def updateProcessedRanges (ranges : List ProcessedRange) (start stop : Int) :
    List ProcessedRange :=
  let allRanges := sortRanges (ranges ++ [⟨start, stop⟩])
  match allRanges with
  | [] => []
  | cur :: rest => mergeSweep cur rest

/-- Embeds `EventAggregator.findRangeToProcess()` (`eventAggregator.ts`
lines 220-238).  `Except.error` embeds the thrown `Error('Unexpected value')`;
`Except.ok none` embeds the `null` result. -/
def findRangeToProcess (rs : List ProcessedRange) :
    Except String (Option ProcessedRange) :=
  match rs.getLast? with
  | none => .ok (some ⟨0, maxSafeInteger⟩)
  | some last =>
    if last.start = 1 then .ok none
    else if last.start = 0 then .error "Unexpected value"
    else
      match rs.dropLast.getLast? with
      | some secondLast => .ok (some ⟨secondLast.stop, last.start⟩)
      | none => .ok (some ⟨0, last.start⟩)

/-- Embeds `EventAggregator.isFullyCovered()` (`eventAggregator.ts` lines
240-248).  In the source the empty branch fires an asynchronous
`hasAnyRecord()` probe whose result is discarded without being awaited; the
function synchronously returns `false` there, which is what this embedding
records. -/
def isFullyCovered (rs : List ProcessedRange) : Bool :=
  match rs with
  | [] => false
  | r :: rest => decide (rest = []) && decide (r.start = 0)

/-- A sequence of `updateProcessedRanges` calls, one per `(start, end)` pair,
in order. -/
def insertAll (L : List ProcessedRange) (ps : List (Int × Int)) :
    List ProcessedRange :=
  ps.foldl (fun acc p => updateProcessedRanges acc p.1 p.2) L

/-- Membership of an integer in the union of a list of closed intervals given
as `(start, end)` pairs. -/
def memPairs (ps : List (Int × Int)) (n : Int) : Bool :=
  ps.any (fun p => decide (p.1 ≤ n ∧ n ≤ p.2))

/-! ## EventStore queries (`eventStore.ts`) -/

/-- Embeds the limit handling of the cursor loop in `EventStore.getEvents`
(`eventStore.ts` lines 270-287): after pushing a result the cursor continues
iff `!options?.limit || results.length < options.limit`.  A limit of `0` is
falsy in JavaScript, so it means "no limit"; a negative limit stops the scan
after the first record. -/
def applyLimit (limit : Int) (l : List α) : List α :=
  if limit = 0 then l
  else if limit < 0 then l.take 1
  else l.take limit.toNat

/-- Embeds `EventStore.getEventsBefore(localId, { limit })`: a descending
cursor over the keys strictly below `localId` (`IDBKeyRange.upperBound(localId,
true)` with direction `'prev'`), truncated by `applyLimit`.  The log is the
content of the `Events` object store in ascending key order. -/
def getEventsBefore (log : List (StoredEvent V)) (localId : Int) (limit : Int) :
    List (StoredEvent V) :=
  applyLimit limit ((log.filter (fun e2 => decide (e2.localId < localId))).reverse)

/-! ## The aggregation engine (`eventAggregator.ts`)

The engine's mutable state relevant to the claims is the in-memory
`processedRanges` list, the persisted copy of that list (the `Metadata`
record written by `saveProcessedRanges` inside the processing transaction),
and the aggregate sub-store (abstract type `Agg`) transformed by the injected
fold.  A transaction either commits (fold effect and coverage write together)
or aborts (neither). -/

/-- Observable outcome of one `handleNewEvent` call (live path). -/
structure LiveResult (A Agg : Type) where
  /-- in-memory `processedRanges` after the call -/
  ranges : List ProcessedRange
  /-- persisted coverage metadata after the call -/
  persisted : List ProcessedRange
  /-- committed aggregate sub-store after the call -/
  agg : Agg
  /-- arguments passed to `notifyListeners` -/
  notified : List A
  /-- `console.error` was called -/
  logged : Bool
deriving DecidableEq

/-- Embeds `EventAggregator.handleNewEvent(ev)` (`eventAggregator.ts` lines
152-171).  `dbOpen` is whether `this.db` is non-null.  On fold success the
coverage insert `(ev.localId, ev.localId)`, its save, and the notification
happen and the transaction commits; on a fold throw the `catch` logs the error
and aborts the transaction, leaving every component unchanged (the coverage
update is not reached).  The transaction itself is assumed to commit when all
its requests succeed. -/
def handleNewEvent (dbOpen : Bool)
    (fold : Agg → StoredEvent V → Except Unit (Agg × Option A))
    (ev : StoredEvent V) (ranges persisted : List ProcessedRange) (agg : Agg) :
    Except String (LiveResult A Agg) :=
  if dbOpen = false then .error "Database not initialized"
  else
    match fold agg ev with
    | .error _ => .ok ⟨ranges, persisted, agg, [], true⟩
    | .ok (agg', changed) =>
      let ranges' := updateProcessedRanges ranges ev.localId ev.localId
      .ok ⟨ranges', ranges', agg',
        (match changed with | some a => [a] | none => []), false⟩

/-- Observable outcome of one `processEvents` tick (catch-up path). -/
structure TickResult (V A Agg : Type) where
  /-- `stopProcessing` was called by the fully-covered check -/
  stopped : Bool
  /-- in-memory `processedRanges` after the tick -/
  ranges : List ProcessedRange
  /-- persisted coverage metadata after the tick -/
  persisted : List ProcessedRange
  /-- committed aggregate sub-store after the tick -/
  agg : Agg
  /-- arguments passed to `notifyListeners` -/
  notified : List A
  /-- events whose fold ran inside the batch transaction -/
  folded : List (StoredEvent V)
  /-- the batch transaction committed -/
  committed : Bool
  /-- `console.error` was called -/
  logged : Bool
deriving DecidableEq

/-- The fold loop of `processEvents` (`eventAggregator.ts` lines 197-202):
fold the retrieved events in order, collecting the non-null results.  On
success, the final aggregate state and the collected results; on a fold throw,
the prefix of events already folded and the results collected so far (they
matter because the source still passes them to `notifyListeners` on the abort
path). -/
def foldBatch (fold : Agg → StoredEvent V → Except Unit (Agg × Option A)) :
    Agg → List (StoredEvent V) →
    Except (List (StoredEvent V) × List A) (Agg × List A)
  | agg, [] => .ok (agg, [])
  | agg, e2 :: es =>
    match fold agg e2 with
    | .error _ => .error ([], [])
    | .ok (agg', none) =>
      match foldBatch fold agg' es with
      | .error (fs, cs) => .error (e2 :: fs, cs)
      | .ok (agg'', cs) => .ok (agg'', cs)
    | .ok (agg', some a) =>
      match foldBatch fold agg' es with
      | .error (fs, cs) => .error (e2 :: fs, a :: cs)
      | .ok (agg'', cs) => .ok (agg'', a :: cs)

/-- Embeds `EventAggregator.processEvents()` (`eventAggregator.ts` lines
173-218).  Control flow of the source:
1. throw if `this.db` is null;
2. if `isFullyCovered()`, call `stopProcessing` and return;
3. `findRangeToProcess()`: a thrown `'Unexpected value'` propagates
   (`Except.error`); `null` returns;
4. read up to `min(batchSize, range.end - range.start - 1)` events before
   `range.end`; an empty result returns;
5. fold each event; on success insert `(1, maxId)` when fewer events than
   `batchSize` were retrieved, else `(minId, maxId)`, save, and return the
   transaction-completion promise — the trailing `notifyListeners(changedItems)`
   on line 217 sits after this `return` and is therefore NOT executed on the
   success path;
6. on a fold throw, the `catch` logs, aborts the transaction (no fold effect,
   no coverage write), and then line 217 passes the results collected before
   the failure to `notifyListeners`.
The batch transaction is assumed to commit when all its requests succeed. -/
def processEvents (dbOpen : Bool)
    (fold : Agg → StoredEvent V → Except Unit (Agg × Option A))
    (batchSize : Int) (log : List (StoredEvent V))
    (ranges persisted : List ProcessedRange) (agg : Agg) :
    Except String (TickResult V A Agg) :=
  if dbOpen = false then .error "Database not initialized"
  else if isFullyCovered ranges then
    .ok ⟨true, ranges, persisted, agg, [], [], false, false⟩
  else
    match findRangeToProcess ranges with
    | .error msg => .error msg
    | .ok none => .ok ⟨false, ranges, persisted, agg, [], [], false, false⟩
    | .ok (some range) =>
      let eventsBefore :=
        getEventsBefore log range.stop (min batchSize (range.stop - range.start - 1))
      match eventsBefore with
      | [] => .ok ⟨false, ranges, persisted, agg, [], [], false, false⟩
      | first :: rest =>
        let maxId := first.localId
        let minId := ((first :: rest).getLastD first).localId
        match foldBatch fold agg (first :: rest) with
        | .error (foldedSoFar, changedSoFar) =>
          .ok ⟨false, ranges, persisted, agg, changedSoFar, foldedSoFar, false, true⟩
        | .ok (agg', _changed) =>
          let ranges' :=
            if ((first :: rest).length : Int) < batchSize then
              updateProcessedRanges ranges 1 maxId
            else
              updateProcessedRanges ranges minId maxId
          .ok ⟨false, ranges', ranges', agg', [], first :: rest, true, false⟩

/-! ## EventStore state and `add` (`eventStore.ts`) -/

/-- State of an `EventStore`: `db` is `none` when the store is not initialized
or disposed, otherwise the content of the `Events` object store (ascending key
order) together with the auto-increment key generator.  Listeners are
identified by abstract tokens. -/
structure EventStoreState (V : Type) where
  db : Option (List (StoredEvent V) × Int)
  listeners : List Nat
deriving DecidableEq

namespace EventStore

/-- Embeds `EventStore.add(value)` (`eventStore.ts` lines 208-227) together
with the unique index on `globalId` created by `initializeDatabase`
(`store.createIndex('globalId', 'globalId', { unique: true })`, lines
200-204): when the freshly generated `globalId` equals the `globalId` of a
stored record, the `store.add` request fails, the promise rejects with an
`Add error`, the transaction aborts and nothing is recorded.  Otherwise the
record is stored under the next auto-increment `localId` and returned. -/
def add (s : EventStoreState V) (globalId : String) (v : V) :
    Except String (EventStoreState V × StoredEvent V) :=
  match s.db with
  | none => .error "Database not initialized"
  | some (log, nextId) =>
    if log.any (fun e2 => decide (e2.globalId = globalId)) then
      .error "Add error"
    else
      let ev : StoredEvent V := ⟨nextId, globalId, v⟩
      .ok ({ s with db := some (log ++ [ev], nextId + 1) }, ev)

/-- Embeds `EventStore.getEventsBefore` including the `this.db` guard of
`getEvents`. -/
def getEventsBeforeOp (s : EventStoreState V) (localId limit : Int) :
    Except String (List (StoredEvent V)) :=
  match s.db with
  | none => .error "Database not initialized"
  | some (log, _) => .ok (getEventsBefore log localId limit)

/-- Embeds `EventStore.hasAnyRecord` (`eventStore.ts` lines 241-254). -/
def hasAnyRecord (s : EventStoreState V) : Except String Bool :=
  match s.db with
  | none => .error "Database not initialized"
  | some (log, _) => .ok (!log.isEmpty)

/-- Embeds `EventStore.dispose` (`eventStore.ts` lines 346-352): clear the
listener set, close and null the database handle. -/
def dispose (_s : EventStoreState V) : EventStoreState V :=
  { db := none, listeners := [] }

/-- Embeds `EventStore.subscribe` (`eventStore.ts` lines 301-306): add the
listener to the set (idempotent) and hand back an unsubscribe token.  It never
checks `this.db` and never errors. -/
def subscribe (s : EventStoreState V) (l : Nat) : EventStoreState V :=
  { s with listeners := if s.listeners.contains l then s.listeners else s.listeners ++ [l] }

/-- The deliveries produced by `EventStore.notifyListeners(msg)`: the stored
event is handed to every currently registered listener. -/
def deliveries (s : EventStoreState V) (ev : StoredEvent V) :
    List (Nat × StoredEvent V) :=
  s.listeners.map (fun l => (l, ev))

end EventStore

/-! ### Temporal trace of one `add` call

`EventStore.add` registers `request.onsuccess` / `request.onerror` handlers on
the `store.add` request and `onerror` / `onabort` handlers on the transaction.
Per IndexedDB semantics a request's `success` event is delivered while the
transaction is still active, before the transaction's `complete` event; a
transaction can still abort after its requests succeeded (e.g. a quota
failure at commit).  The source broadcasts to subscribers and resolves the
returned promise inside `request.onsuccess` (lines 218-223); the transaction
outcome is observed afterwards. -/

/-- Observable actions of one `EventStore.add` call, in order. -/
inductive AppendAction (V : Type)
  | notifySubscribers (ev : StoredEvent V)
  | promiseResolved
  | promiseRejected
  | txCommitted
  | txAborted
deriving DecidableEq

/-- The ordered trace of observable actions of one `add` call, as wired by the
source's handlers: `requestSucceeds` is whether the `store.add` request
succeeds (it fails on a `globalId` collision), `commitSucceeds` is whether the
transaction subsequently commits.  A failed request aborts the transaction and
rejects; a later transaction error cannot change the already settled
promise. -/
def addTrace (requestSucceeds commitSucceeds : Bool) (ev : StoredEvent V) :
    List (AppendAction V) :=
  if requestSucceeds then
    [.notifySubscribers ev, .promiseResolved] ++
      (if commitSucceeds then [.txCommitted] else [.txAborted])
  else
    [.promiseRejected, .txAborted]

/-! ## Aggregator lifecycle state (`eventAggregator.ts`) -/

/-- The mutable fields of an `EventAggregator` relevant to subscription,
processing control and disposal. -/
structure AggregatorState (Agg : Type) where
  /-- `this.db` is non-null -/
  dbOpen : Bool
  processedRanges : List ProcessedRange
  /-- persisted coverage metadata -/
  persisted : List ProcessedRange
  /-- the aggregate sub-store -/
  agg : Agg
  /-- registered change listeners -/
  listeners : List Nat
  /-- `this.processingIntervalId` is non-null -/
  timerOn : Bool
deriving DecidableEq

namespace EventAggregator

/-- Embeds `EventAggregator.dispose` (`eventAggregator.ts` lines 273-279):
clear the listener set, close and null the database handle.  It does not
touch the processing timer. -/
def dispose (s : AggregatorState Agg) : AggregatorState Agg :=
  { s with dbOpen := false, listeners := [] }

/-- Embeds `EventAggregator.subscribe` (`eventAggregator.ts` lines 145-150):
add the listener to the set and hand back an unsubscribe token.  It never
checks `this.db` and never errors. -/
def subscribe (s : AggregatorState Agg) (l : Nat) : AggregatorState Agg :=
  { s with listeners := if s.listeners.contains l then s.listeners else s.listeners ++ [l] }

/-- Embeds `EventAggregator.startProcessing` (lines 117-124): schedule the
periodic tick if not already scheduled.  It never checks `this.db` and never
errors. -/
def startProcessing (s : AggregatorState Agg) : AggregatorState Agg :=
  { s with timerOn := true }

/-- Embeds `EventAggregator.stopProcessing` (lines 126-131). -/
def stopProcessing (s : AggregatorState Agg) : AggregatorState Agg :=
  { s with timerOn := false }

/-- The deliveries produced by `EventAggregator.notifyListeners(changes)`
(lines 133-143): each changed item is handed to every currently registered
listener, changes outermost. -/
def notifyDeliveries (s : AggregatorState Agg) (changes : List A) :
    List (Nat × A) :=
  changes.flatMap (fun c => s.listeners.map (fun l => (l, c)))

end EventAggregator

/-! ## Composite append (live path wiring)

`EventStore.add` broadcasts the stored event to its subscribers inside
`request.onsuccess`; the aggregator subscribed `handleNewEvent` during its
initialization (`eventAggregator.ts` line 49).  `notifyListeners` in the
store does not await the (async) listener, so a listener failure does not
affect the result of `add`. -/

/-- Combined state of one event store and one aggregator subscribed to it. -/
structure SystemState (V Agg : Type) where
  store : EventStoreState V
  aggDbOpen : Bool
  ranges : List ProcessedRange
  persisted : List ProcessedRange
  agg : Agg
deriving DecidableEq

/-- One `add` call on the store with the aggregator's `handleNewEvent`
subscribed: on add failure nothing happens at all; on success the aggregator
processes the event on the live path (its own failure is swallowed by the
store's `notifyListeners`).  The returned boolean is whether the `add` promise
resolved. -/
def systemAppend (fold : Agg → StoredEvent V → Except Unit (Agg × Option A))
    (st : SystemState V Agg) (globalId : String) (v : V) :
    SystemState V Agg × Bool :=
  match EventStore.add st.store globalId v with
  | .error _ => (st, false)
  | .ok (store', ev) =>
    match handleNewEvent st.aggDbOpen fold ev st.ranges st.persisted st.agg with
    | .error _ => ({ st with store := store' }, true)
    | .ok r =>
      ({ st with store := store', ranges := r.ranges,
                 persisted := r.persisted, agg := r.agg }, true)

/-! ## Reachable coverage states

The coverage list starts empty (`loadProcessedRanges` of a fresh database) and
is only ever replaced by the live path (`handleNewEvent`) and the catch-up
path (`processEvents`).  Log records always carry `localId ≥ 1` (IndexedDB
auto-increment keys start at 1). -/

/-- The in-memory coverage lists reachable from empty coverage through the
live and catch-up paths, over any fold behaviour and any log whose events all
have `localId ≥ 1`. -/
inductive ReachableCov : List ProcessedRange → Prop
  | origin : ReachableCov []
  | live {V A Agg : Type} (fold : Agg → StoredEvent V → Except Unit (Agg × Option A))
      (ev : StoredEvent V) (rs p : List ProcessedRange) (agg : Agg)
      (r : LiveResult A Agg) :
      ReachableCov rs → 1 ≤ ev.localId →
      handleNewEvent true fold ev rs p agg = .ok r →
      ReachableCov r.ranges
  | catchup {V A Agg : Type} (fold : Agg → StoredEvent V → Except Unit (Agg × Option A))
      (batchSize : Int) (log : List (StoredEvent V)) (rs p : List ProcessedRange)
      (agg : Agg) (t : TickResult V A Agg) :
      ReachableCov rs → (∀ e2 ∈ log, 1 ≤ e2.localId) →
      processEvents true fold batchSize log rs p agg = .ok t →
      ReachableCov t.ranges

/-! ## Lemmas about the coverage algebra -/

theorem memB_nil (n : Int) : memB [] n = false := rfl

theorem memB_cons (r : ProcessedRange) (L : List ProcessedRange) (n : Int) :
    memB (r :: L) n = (decide (r.start ≤ n ∧ n ≤ r.stop) || memB L n) := by
  simp [memB]

theorem memB_append (L M : List ProcessedRange) (n : Int) :
    memB (L ++ M) n = (memB L n || memB M n) := by
  simp [memB]

theorem properB_cons (r : ProcessedRange) (L : List ProcessedRange) :
    properB (r :: L) = (decide (r.start ≤ r.stop) && properB L) := by
  simp [properB]

theorem properB_append (L M : List ProcessedRange) :
    properB (L ++ M) = (properB L && properB M) := by
  simp [properB]

theorem memB_insertSorted (r : ProcessedRange) (L : List ProcessedRange) (n : Int) :
    memB (insertSorted r L) n = (decide (r.start ≤ n ∧ n ≤ r.stop) || memB L n) := by
  induction L with
  | nil => simp only [insertSorted]; rw [memB_cons]
  | cons x xs ih =>
    simp only [insertSorted]
    split
    · rw [memB_cons]
    · rw [memB_cons, ih, memB_cons, Bool.or_left_comm]

theorem memB_sortRanges (L : List ProcessedRange) (n : Int) :
    memB (sortRanges L) n = memB L n := by
  induction L with
  | nil => rfl
  | cons x xs ih => rw [sortRanges, memB_insertSorted, ih, memB_cons]

theorem properB_insertSorted (r : ProcessedRange) (L : List ProcessedRange) :
    properB (insertSorted r L) = (decide (r.start ≤ r.stop) && properB L) := by
  induction L with
  | nil => simp [insertSorted, properB]
  | cons x xs ih =>
    simp only [insertSorted]
    split
    · rw [properB_cons, properB_cons]
    · rw [properB_cons, ih, properB_cons, Bool.and_left_comm]

theorem properB_sortRanges (L : List ProcessedRange) :
    properB (sortRanges L) = properB L := by
  induction L with
  | nil => rfl
  | cons x xs ih => rw [sortRanges, properB_insertSorted, ih, properB_cons]

theorem leHead_nil (r : ProcessedRange) : leHead r [] = true := rfl

theorem leHead_cons (r s : ProcessedRange) (L : List ProcessedRange) :
    leHead r (s :: L) = decide (r.start ≤ s.start) := rfl

theorem sortedB_cons (r : ProcessedRange) (L : List ProcessedRange) :
    sortedB (r :: L) = (leHead r L && sortedB L) := rfl

theorem insertSorted_ne_nil (r : ProcessedRange) (L : List ProcessedRange) :
    insertSorted r L ≠ [] := by
  cases L with
  | nil => simp [insertSorted]
  | cons x xs =>
    simp only [insertSorted]
    split <;> simp

theorem sortedB_insertSorted (r : ProcessedRange) (L : List ProcessedRange)
    (h : sortedB L = true) : sortedB (insertSorted r L) = true := by
  induction L with
  | nil => simp [insertSorted, sortedB, leHead]
  | cons x xs ih =>
    rw [sortedB_cons, Bool.and_eq_true] at h
    simp only [insertSorted]
    split
    · rename_i hle
      rw [sortedB_cons, leHead_cons, sortedB_cons]
      simp [hle, h.1, h.2]
    · rename_i hgt
      rw [sortedB_cons, Bool.and_eq_true]
      refine ⟨?_, ih h.2⟩
      have hxr : x.start ≤ r.start := by omega
      cases hxs : xs with
      | nil => simp [hxs, insertSorted, leHead_cons, hxr]
      | cons y ys =>
        have hxy : x.start ≤ y.start := by
          have := h.1
          rw [hxs, leHead_cons, decide_eq_true_eq] at this
          exact this
        simp only [insertSorted]
        split
        · rw [leHead_cons, decide_eq_true_eq]; exact hxr
        · rw [leHead_cons, decide_eq_true_eq]; exact hxy

theorem sortedB_sortRanges (L : List ProcessedRange) :
    sortedB (sortRanges L) = true := by
  induction L with
  | nil => rfl
  | cons x xs ih => exact sortedB_insertSorted x (sortRanges xs) ih

theorem sortRanges_ne_nil (L : List ProcessedRange) (h : L ≠ []) :
    sortRanges L ≠ [] := by
  cases L with
  | nil => exact absurd rfl h
  | cons x xs => exact insertSorted_ne_nil x (sortRanges xs)

theorem mem_insertSorted (r x : ProcessedRange) (L : List ProcessedRange) :
    x ∈ insertSorted r L ↔ x = r ∨ x ∈ L := by
  induction L with
  | nil => simp [insertSorted]
  | cons y ys ih =>
    simp only [insertSorted]
    split
    · simp [or_comm, or_assoc, or_left_comm]
    · simp only [List.mem_cons, ih]
      tauto

theorem mem_sortRanges (x : ProcessedRange) (L : List ProcessedRange) :
    x ∈ sortRanges L ↔ x ∈ L := by
  induction L with
  | nil => simp [sortRanges]
  | cons y ys ih => simp [sortRanges, mem_insertSorted, ih]

theorem mergeSweep_ne_nil (cur : ProcessedRange) (l : List ProcessedRange) :
    mergeSweep cur l ≠ [] := by
  induction l generalizing cur with
  | nil => simp [mergeSweep]
  | cons next rest ih =>
    simp only [mergeSweep]
    split
    · exact ih _
    · simp

theorem headStart_mergeSweep (cur : ProcessedRange) (l : List ProcessedRange) :
    headStart (mergeSweep cur l) = cur.start := by
  induction l generalizing cur with
  | nil => rfl
  | cons next rest ih =>
    simp only [mergeSweep]
    split
    · exact ih _
    · rfl

theorem memB_mergeSweep (l : List ProcessedRange) (cur : ProcessedRange)
    (hp : properB l = true) (hs : sortedB l = true)
    (hcur : cur.start ≤ cur.stop) (hle : leHead cur l = true) (n : Int) :
    memB (mergeSweep cur l) n = memB (cur :: l) n := by
  induction l generalizing cur with
  | nil => rfl
  | cons next rest ih =>
    rw [properB_cons, Bool.and_eq_true, decide_eq_true_eq] at hp
    rw [sortedB_cons, Bool.and_eq_true] at hs
    rw [leHead_cons, decide_eq_true_eq] at hle
    simp only [mergeSweep]
    split
    · rename_i hmerge
      rw [ih ⟨cur.start, max cur.stop next.stop⟩ hp.2 hs.2 (by simp; omega) ?_]
      · rw [memB_cons, memB_cons, memB_cons, ← Bool.or_assoc]
        have harith :
            decide (cur.start ≤ n ∧ n ≤ max cur.stop next.stop) =
              (decide (cur.start ≤ n ∧ n ≤ cur.stop) ||
               decide (next.start ≤ n ∧ n ≤ next.stop)) := by
          rw [← Bool.decide_or, decide_eq_decide]
          constructor
          · intro h; omega
          · intro h; omega
        rw [harith]
      · cases hrest : rest with
        | nil => rfl
        | cons y ys =>
          have hny : next.start ≤ y.start := by
            have := hs.1
            rw [hrest, leHead_cons, decide_eq_true_eq] at this
            exact this
          rw [leHead_cons, decide_eq_true_eq]
          exact le_trans hle hny
    · rw [memB_cons, ih next hp.2 hs.2 hp.1 hs.1, memB_cons, memB_cons, memB_cons]

theorem wfB_mergeSweep (l : List ProcessedRange) (cur : ProcessedRange)
    (hp : properB l = true) (hs : sortedB l = true)
    (hcur : cur.start ≤ cur.stop) (hle : leHead cur l = true) :
    wfB (mergeSweep cur l) = true := by
  induction l generalizing cur with
  | nil => simp [mergeSweep, wfB, sepHead, hcur]
  | cons next rest ih =>
    rw [properB_cons, Bool.and_eq_true, decide_eq_true_eq] at hp
    rw [sortedB_cons, Bool.and_eq_true] at hs
    rw [leHead_cons, decide_eq_true_eq] at hle
    simp only [mergeSweep]
    split
    · rename_i hmerge
      refine ih ⟨cur.start, max cur.stop next.stop⟩ hp.2 hs.2 (by simp; omega) ?_
      cases hrest : rest with
      | nil => rfl
      | cons y ys =>
        have hny : next.start ≤ y.start := by
          have := hs.1
          rw [hrest, leHead_cons, decide_eq_true_eq] at this
          exact this
        rw [leHead_cons, decide_eq_true_eq]
        exact le_trans hle hny
    · rename_i hfar
      have hsep : sepHead cur (mergeSweep next rest) = true := by
        have hne := mergeSweep_ne_nil next rest
        have hhead := headStart_mergeSweep next rest
        cases hms : mergeSweep next rest with
        | nil => exact absurd hms hne
        | cons h t =>
          rw [hms] at hhead
          simp only [headStart] at hhead
          simp only [sepHead, decide_eq_true_eq, hhead]
          omega
      rw [wfB, hsep, ih next hp.2 hs.2 hp.1 hs.1]
      simp [hcur]

/-- `updateProcessedRanges` on a list of proper ranges with a proper new range
yields a well-formed list. -/
theorem wfB_updateProcessedRanges (L : List ProcessedRange) (s e : Int)
    (hp : properB L = true) (hse : s ≤ e) :
    wfB (updateProcessedRanges L s e) = true := by
  have hpX : properB (sortRanges (L ++ [⟨s, e⟩])) = true := by
    rw [properB_sortRanges, properB_append, hp]
    simp [properB, hse]
  have hsX : sortedB (sortRanges (L ++ [⟨s, e⟩])) = true := sortedB_sortRanges _
  have hne : sortRanges (L ++ [⟨s, e⟩]) ≠ [] := sortRanges_ne_nil _ (by simp)
  unfold updateProcessedRanges
  cases hS : sortRanges (L ++ [⟨s, e⟩]) with
  | nil => exact absurd hS hne
  | cons cur rest =>
    rw [hS] at hpX hsX
    rw [properB_cons, Bool.and_eq_true, decide_eq_true_eq] at hpX
    rw [sortedB_cons, Bool.and_eq_true] at hsX
    exact wfB_mergeSweep rest cur hpX.2 hsX.2 hpX.1 hsX.1

/-- The set covered by `updateProcessedRanges L s e` is the set covered by `L`
united with the closed interval `[s, e]`. -/
theorem memB_updateProcessedRanges (L : List ProcessedRange) (s e : Int)
    (hp : properB L = true) (hse : s ≤ e) (n : Int) :
    memB (updateProcessedRanges L s e) n = (memB L n || decide (s ≤ n ∧ n ≤ e)) := by
  have hpX : properB (sortRanges (L ++ [⟨s, e⟩])) = true := by
    rw [properB_sortRanges, properB_append, hp]
    simp [properB, hse]
  have hsX : sortedB (sortRanges (L ++ [⟨s, e⟩])) = true := sortedB_sortRanges _
  have hne : sortRanges (L ++ [⟨s, e⟩]) ≠ [] := sortRanges_ne_nil _ (by simp)
  unfold updateProcessedRanges
  cases hS : sortRanges (L ++ [⟨s, e⟩]) with
  | nil => exact absurd hS hne
  | cons cur rest =>
    rw [hS] at hpX hsX
    rw [properB_cons, Bool.and_eq_true, decide_eq_true_eq] at hpX
    rw [sortedB_cons, Bool.and_eq_true] at hsX
    rw [memB_mergeSweep rest cur hpX.2 hsX.2 hpX.1 hsX.1 n, ← hS,
      memB_sortRanges, memB_append, memB_cons, memB_nil, Bool.or_false]

/-- Well-formed lists consist of proper ranges. -/
theorem wfB_properB (L : List ProcessedRange) (h : wfB L = true) :
    properB L = true := by
  induction L with
  | nil => rfl
  | cons r rest ih =>
    rw [wfB, Bool.and_eq_true, Bool.and_eq_true] at h
    rw [properB_cons, h.1.1, ih h.2]
    rfl

/-- In a well-formed list every element past the head starts strictly above
`head.stop + 1`. -/
theorem wfB_sep_of_mem (r : ProcessedRange) (t : List ProcessedRange)
    (h : wfB (r :: t) = true) : ∀ q ∈ t, r.stop + 1 < q.start := by
  induction t generalizing r with
  | nil => intro q hq; cases hq
  | cons s t' ih =>
    rw [wfB, Bool.and_eq_true, Bool.and_eq_true] at h
    have hsep : r.stop + 1 < s.start := by
      have := h.1.2
      rwa [sepHead, decide_eq_true_eq] at this
    have hswf : wfB (s :: t') = true := h.2
    have hsprop : s.start ≤ s.stop := by
      rw [wfB, Bool.and_eq_true, Bool.and_eq_true, decide_eq_true_eq] at hswf
      exact hswf.1.1
    intro q hq
    rcases List.mem_cons.mp hq with hq | hq
    · rw [hq]; exact hsep
    · have := ih s h.2 q hq
      omega

/-- In a well-formed list every element starts at or above `head.start`. -/
theorem wfB_start_le_of_mem (r : ProcessedRange) (t : List ProcessedRange)
    (h : wfB (r :: t) = true) : ∀ q ∈ r :: t, r.start ≤ q.start := by
  intro q hq
  rcases List.mem_cons.mp hq with hq | hq
  · rw [hq]
  · have hsep := wfB_sep_of_mem r t h q hq
    have hr : r.start ≤ r.stop := by
      rw [wfB, Bool.and_eq_true, Bool.and_eq_true, decide_eq_true_eq] at h
      exact h.1.1
    omega

/-- Points at or below `head.stop + 1` are not covered by the tail of a
well-formed list. -/
theorem memB_tail_false (r : ProcessedRange) (t : List ProcessedRange)
    (h : wfB (r :: t) = true) (n : Int) (hn : n ≤ r.stop + 1) :
    memB t n = false := by
  rw [memB, List.any_eq_false]
  intro q hq
  have := wfB_sep_of_mem r t h q hq
  simp only [decide_eq_true_eq]
  omega

/-- A covered point provides a containing range. -/
theorem memB_exists (L : List ProcessedRange) (n : Int) (h : memB L n = true) :
    ∃ q ∈ L, q.start ≤ n ∧ n ≤ q.stop := by
  rw [memB, List.any_eq_true] at h
  obtain ⟨q, hq, hqn⟩ := h
  rw [decide_eq_true_eq] at hqn
  exact ⟨q, hq, hqn⟩

/-- Two well-formed coverage lists covering the same set of integers are
equal: the sorted non-overlapping non-adjacent representation is canonical. -/
theorem wfB_memB_unique (L L' : List ProcessedRange)
    (hL : wfB L = true) (hL' : wfB L' = true)
    (h : ∀ n, memB L n = memB L' n) : L = L' := by
  induction L generalizing L' with
  | nil =>
    cases L' with
    | nil => rfl
    | cons r' t' =>
      exfalso
      have hr' : r'.start ≤ r'.stop := by
        rw [wfB, Bool.and_eq_true, Bool.and_eq_true, decide_eq_true_eq] at hL'
        exact hL'.1.1
      have : memB (r' :: t') r'.start = true := by
        rw [memB_cons, Bool.or_eq_true, decide_eq_true_eq]
        exact Or.inl ⟨le_refl _, hr'⟩
      rw [← h r'.start] at this
      simp [memB_nil] at this
  | cons r t ih =>
    cases L' with
    | nil =>
      exfalso
      have hr : r.start ≤ r.stop := by
        rw [wfB, Bool.and_eq_true, Bool.and_eq_true, decide_eq_true_eq] at hL
        exact hL.1.1
      have : memB (r :: t) r.start = true := by
        rw [memB_cons, Bool.or_eq_true, decide_eq_true_eq]
        exact Or.inl ⟨le_refl _, hr⟩
      rw [h r.start] at this
      simp [memB_nil] at this
    | cons r' t' =>
      have hr : r.start ≤ r.stop := by
        rw [wfB, Bool.and_eq_true, Bool.and_eq_true, decide_eq_true_eq] at hL
        exact hL.1.1
      have hr' : r'.start ≤ r'.stop := by
        rw [wfB, Bool.and_eq_true, Bool.and_eq_true, decide_eq_true_eq] at hL'
        exact hL'.1.1
      -- equal starts
      have hstart : r.start = r'.start := by
        have h1 : memB (r' :: t') r.start = true := by
          rw [← h r.start, memB_cons, Bool.or_eq_true, decide_eq_true_eq]
          exact Or.inl ⟨le_refl _, hr⟩
        have h2 : memB (r :: t) r'.start = true := by
          rw [h r'.start, memB_cons, Bool.or_eq_true, decide_eq_true_eq]
          exact Or.inl ⟨le_refl _, hr'⟩
        obtain ⟨q1, hq1, hq1n⟩ := memB_exists _ _ h1
        obtain ⟨q2, hq2, hq2n⟩ := memB_exists _ _ h2
        have := wfB_start_le_of_mem r' t' hL' q1 hq1
        have := wfB_start_le_of_mem r t hL q2 hq2
        omega
      -- equal stops
      have hstop : r.stop = r'.stop := by
        have hna : memB (r :: t) (r.stop + 1) = false := by
          rw [memB_cons, Bool.or_eq_false_iff, decide_eq_false_iff_not]
          exact ⟨fun hc => by omega, memB_tail_false r t hL _ (le_refl _)⟩
        have hna' : memB (r' :: t') (r'.stop + 1) = false := by
          rw [memB_cons, Bool.or_eq_false_iff, decide_eq_false_iff_not]
          exact ⟨fun hc => by omega, memB_tail_false r' t' hL' _ (le_refl _)⟩
        rcases lt_trichotomy r.stop r'.stop with hlt | heq | hgt
        · exfalso
          have : memB (r' :: t') (r.stop + 1) = true := by
            rw [memB_cons, Bool.or_eq_true, decide_eq_true_eq]
            exact Or.inl ⟨by omega, by omega⟩
          rw [← h (r.stop + 1), hna] at this
          cases this
        · exact heq
        · exfalso
          have : memB (r :: t) (r'.stop + 1) = true := by
            rw [memB_cons, Bool.or_eq_true, decide_eq_true_eq]
            exact Or.inl ⟨by omega, by omega⟩
          rw [h (r'.stop + 1), hna'] at this
          cases this
      -- equal heads, recurse on the tails
      have hhead : r = r' := by
        cases r; cases r'
        simp_all
      have htail : ∀ n, memB t n = memB t' n := by
        intro n
        by_cases hn : n ≤ r.stop + 1
        · rw [memB_tail_false r t hL n hn,
            memB_tail_false r' t' hL' n (by omega)]
        · have hrn : decide (r.start ≤ n ∧ n ≤ r.stop) = false := by
            rw [decide_eq_false_iff_not]; omega
          have hrn' : decide (r'.start ≤ n ∧ n ≤ r'.stop) = false := by
            rw [decide_eq_false_iff_not]; omega
          have := h n
          rw [memB_cons, memB_cons, hrn, hrn', Bool.false_or, Bool.false_or] at this
          exact this
      have hwt : wfB t = true := by
        rw [wfB, Bool.and_eq_true] at hL
        exact hL.2
      have hwt' : wfB t' = true := by
        rw [wfB, Bool.and_eq_true] at hL'
        exact hL'.2
      rw [hhead, ih t' hwt hwt' htail]

theorem memPairs_cons (p : Int × Int) (ps : List (Int × Int)) (n : Int) :
    memPairs (p :: ps) n = (decide (p.1 ≤ n ∧ n ≤ p.2) || memPairs ps n) := by
  simp [memPairs]

/-- A sequence of proper inserts starting from a well-formed list yields a
well-formed list covering the old set united with all inserted intervals. -/
theorem insertAll_props (ps : List (Int × Int)) (L : List ProcessedRange)
    (hL : wfB L = true) (hps : ∀ p ∈ ps, p.1 ≤ p.2) :
    wfB (insertAll L ps) = true ∧
    ∀ n : Int, memB (insertAll L ps) n = (memB L n || memPairs ps n) := by
  induction ps generalizing L with
  | nil =>
    refine ⟨hL, fun n => ?_⟩
    simp [insertAll, memPairs]
  | cons p ps' ih =>
    have hp : p.1 ≤ p.2 := hps p (List.mem_cons_self _ _)
    have hL' : wfB (updateProcessedRanges L p.1 p.2) = true :=
      wfB_updateProcessedRanges L p.1 p.2 (wfB_properB L hL) hp
    have step : insertAll L (p :: ps') = insertAll (updateProcessedRanges L p.1 p.2) ps' := rfl
    obtain ⟨hwf, hmem⟩ := ih (updateProcessedRanges L p.1 p.2) hL'
      (fun q hq => hps q (List.mem_cons_of_mem _ hq))
    refine ⟨step ▸ hwf, fun n => ?_⟩
    rw [step, hmem n, memB_updateProcessedRanges L p.1 p.2 (wfB_properB L hL) hp n,
      memPairs_cons, Bool.or_assoc]

theorem start_mem_mergeSweep (l : List ProcessedRange) (cur r' : ProcessedRange)
    (h : r' ∈ mergeSweep cur l) :
    r'.start = cur.start ∨ ∃ q ∈ l, r'.start = q.start := by
  induction l generalizing cur with
  | nil =>
    simp only [mergeSweep, List.mem_singleton] at h
    exact Or.inl (h ▸ rfl)
  | cons next rest ih =>
    simp only [mergeSweep] at h
    split at h
    · rcases ih _ h with h2 | ⟨q, hq, h2⟩
      · exact Or.inl h2
      · exact Or.inr ⟨q, List.mem_cons_of_mem _ hq, h2⟩
    · rcases List.mem_cons.mp h with h2 | h2
      · exact Or.inl (h2 ▸ rfl)
      · rcases ih next h2 with h3 | ⟨q, hq, h3⟩
        · exact Or.inr ⟨next, List.mem_cons_self _ _, h3⟩
        · exact Or.inr ⟨q, List.mem_cons_of_mem _ hq, h3⟩

/-- Every range produced by `updateProcessedRanges` starts either at the
inserted start or at the start of one of the previous ranges. -/
theorem start_mem_updateProcessedRanges (L : List ProcessedRange) (s e : Int)
    (r' : ProcessedRange) (h : r' ∈ updateProcessedRanges L s e) :
    r'.start = s ∨ ∃ q ∈ L, r'.start = q.start := by
  have hne : sortRanges (L ++ [⟨s, e⟩]) ≠ [] := sortRanges_ne_nil _ (by simp)
  unfold updateProcessedRanges at h
  cases hS : sortRanges (L ++ [⟨s, e⟩]) with
  | nil => exact absurd hS hne
  | cons cur rest =>
    rw [hS] at h
    have hsub : ∀ q ∈ cur :: rest, q ∈ L ++ [⟨s, e⟩] := by
      intro q hq
      rw [← hS] at hq
      exact (mem_sortRanges q _).mp hq
    rcases start_mem_mergeSweep rest cur r' h with h2 | ⟨q, hq, h2⟩
    · rcases List.mem_append.mp (hsub cur (List.mem_cons_self _ _)) with hc | hc
      · exact Or.inr ⟨cur, hc, h2⟩
      · rw [List.mem_singleton.mp hc] at h2
        exact Or.inl h2
    · rcases List.mem_append.mp (hsub q (List.mem_cons_of_mem _ hq)) with hc | hc
      · exact Or.inr ⟨q, hc, h2⟩
      · rw [List.mem_singleton.mp hc] at h2
        exact Or.inl h2

theorem mem_applyLimit (limit : Int) (l : List α) (x : α) (h : x ∈ applyLimit limit l) :
    x ∈ l := by
  unfold applyLimit at h
  split at h
  · exact h
  · split at h
    · exact List.take_subset _ _ h
    · exact List.take_subset _ _ h

theorem mem_getEventsBefore (log : List (StoredEvent V)) (i limit : Int)
    (x : StoredEvent V) (h : x ∈ getEventsBefore log i limit) : x ∈ log := by
  unfold getEventsBefore at h
  have := mem_applyLimit _ _ _ h
  rw [List.mem_reverse] at this
  exact List.mem_of_mem_filter this

/-- On any successful tick the in-memory coverage either stays unchanged or
is advanced by exactly one insert, `(1, maxId)` or `(minId, maxId)`, with both
endpoints being `localId`s of events in the log. -/
theorem processEvents_ranges_cases {V A Agg : Type}
    (fold : Agg → StoredEvent V → Except Unit (Agg × Option A))
    (b : Int) (log : List (StoredEvent V)) (rs p : List ProcessedRange) (agg : Agg)
    (t : TickResult V A Agg)
    (h : processEvents true fold b log rs p agg = .ok t) :
    t.ranges = rs
    ∨ (∃ e1 ∈ log, t.ranges = updateProcessedRanges rs 1 e1.localId)
    ∨ (∃ e1 ∈ log, ∃ e2 ∈ log,
        t.ranges = updateProcessedRanges rs e2.localId e1.localId) := by
  unfold processEvents at h
  rw [if_neg (by decide)] at h
  split at h
  · exact Or.inl ((Except.ok.inj h) ▸ rfl)
  · split at h
    · exact absurd h (by simp)
    · exact Or.inl ((Except.ok.inj h) ▸ rfl)
    · rename_i range heq
      dsimp only [] at h
      split at h
      · exact Or.inl ((Except.ok.inj h) ▸ rfl)
      · rename_i first rest hret
        have hfirst : first ∈ log := by
          refine mem_getEventsBefore log range.stop
            (min b (range.stop - range.start - 1)) first ?_
          rw [hret]
          exact List.mem_cons_self _ _
        have hlast : (first :: rest).getLastD first ∈ log := by
          refine mem_getEventsBefore log range.stop
            (min b (range.stop - range.start - 1)) _ ?_
          rw [hret, List.getLastD_cons]
          exact List.getLastD_mem_cons rest first
        split at h
        · exact Or.inl ((Except.ok.inj h) ▸ rfl)
        · split at h
          · refine Or.inr (Or.inl ⟨first, hfirst, ?_⟩)
            exact (Except.ok.inj h) ▸ rfl
          · refine Or.inr (Or.inr ⟨first, hfirst, (first :: rest).getLastD first, hlast, ?_⟩)
            exact (Except.ok.inj h) ▸ rfl

/-- Every coverage list reachable from empty coverage consists of ranges
starting at 1 or above. -/
theorem reachable_starts (rs : List ProcessedRange) (h : ReachableCov rs) :
    ∀ r ∈ rs, 1 ≤ r.start := by
  induction h with
  | origin => intro r hr; cases hr
  | live fold ev rs' p agg r hre hid hok ih =>
    intro q hq
    unfold handleNewEvent at hok
    rw [if_neg (by decide)] at hok
    split at hok
    · rw [← Except.ok.inj hok] at hq
      exact ih q hq
    · rw [← Except.ok.inj hok] at hq
      dsimp only at hq
      rcases start_mem_updateProcessedRanges rs' ev.localId ev.localId q hq with h2 | ⟨q', hq', h2⟩
      · omega
      · rw [h2]; exact ih q' hq'
  | catchup fold b log rs' p agg t hre hlog hok ih =>
    intro q hq
    rcases processEvents_ranges_cases fold b log rs' p agg t hok with
      h2 | ⟨e1, he1, h2⟩ | ⟨e1, he1, e2, he2, h2⟩
    · rw [h2] at hq; exact ih q hq
    · rw [h2] at hq
      rcases start_mem_updateProcessedRanges rs' 1 e1.localId q hq with h3 | ⟨q', hq', h3⟩
      · omega
      · rw [h3]; exact ih q' hq'
    · rw [h2] at hq
      rcases start_mem_updateProcessedRanges rs' e2.localId e1.localId q hq with h3 | ⟨q', hq', h3⟩
      · have := hlog e2 he2; omega
      · rw [h3]; exact ih q' hq'

/-- A coverage list whose ranges all start at 1 or above is never fully
covered and never makes `findRangeToProcess` throw. -/
theorem starts_pos_conclusions (rs : List ProcessedRange)
    (h1 : ∀ r ∈ rs, 1 ≤ r.start) :
    isFullyCovered rs = false ∧ ∃ o, findRangeToProcess rs = .ok o := by
  constructor
  · cases rs with
    | nil => rfl
    | cons r rest =>
      have := h1 r (List.mem_cons_self _ _)
      have h0 : ¬r.start = 0 := by omega
      simp [isFullyCovered, h0]
  · cases hL : rs.getLast? with
    | none =>
      refine ⟨some ⟨0, maxSafeInteger⟩, ?_⟩
      unfold findRangeToProcess
      rw [hL]
    | some last =>
      have hmem : last ∈ rs := List.mem_of_getLast?_eq_some hL
      have hpos := h1 last hmem
      unfold findRangeToProcess
      rw [hL]
      dsimp only
      by_cases hc : last.start = 1
      · exact ⟨none, by simp [hc]⟩
      · have h0 : ¬last.start = 0 := by omega
        rw [if_neg hc, if_neg h0]
        cases rs.dropLast.getLast? with
        | some secondLast => exact ⟨some ⟨secondLast.stop, last.start⟩, rfl⟩
        | none => exact ⟨some ⟨0, last.start⟩, rfl⟩

/-- On a tick from a not-fully-covered coverage list the timer is not
stopped. -/
theorem processEvents_not_stopped {V A Agg : Type}
    (fold : Agg → StoredEvent V → Except Unit (Agg × Option A))
    (b : Int) (log : List (StoredEvent V)) (rs p : List ProcessedRange) (agg : Agg)
    (t : TickResult V A Agg)
    (hfc : isFullyCovered rs = false)
    (h : processEvents true fold b log rs p agg = .ok t) : t.stopped = false := by
  unfold processEvents at h
  rw [if_neg (by decide), if_neg (by rw [hfc]; decide)] at h
  split at h
  · exact absurd h (by simp)
  · exact (Except.ok.inj h) ▸ rfl
  · rename_i range heq
    dsimp only [] at h
    split at h
    · exact (Except.ok.inj h) ▸ rfl
    · split at h
      · exact (Except.ok.inj h) ▸ rfl
      · exact (Except.ok.inj h) ▸ rfl

/-- On a committed tick the batch is exactly the retrieval result for the gap
returned by `findRangeToProcess`, nothing is notified, and coverage advances
by `(1, maxId)` or `(minId, maxId)` according to the batch-size test. -/
theorem processEvents_committed_shape {V A Agg : Type}
    (fold : Agg → StoredEvent V → Except Unit (Agg × Option A))
    (b : Int) (log : List (StoredEvent V)) (rs p : List ProcessedRange) (agg : Agg)
    (t : TickResult V A Agg)
    (h : processEvents true fold b log rs p agg = .ok t)
    (hcommit : t.committed = true) :
    ∃ (range : ProcessedRange) (first : StoredEvent V) (rest : List (StoredEvent V)),
      findRangeToProcess rs = .ok (some range)
      ∧ getEventsBefore log range.stop (min b (range.stop - range.start - 1)) = first :: rest
      ∧ t.folded = first :: rest
      ∧ t.notified = []
      ∧ t.ranges = (if ((first :: rest).length : Int) < b
          then updateProcessedRanges rs 1 first.localId
          else updateProcessedRanges rs ((first :: rest).getLastD first).localId first.localId)
      ∧ t.persisted = t.ranges := by
  unfold processEvents at h
  rw [if_neg (by decide)] at h
  split at h
  · rw [← Except.ok.inj h] at hcommit
    simp at hcommit
  · split at h
    · exact absurd h (by simp)
    · rw [← Except.ok.inj h] at hcommit
      simp at hcommit
    · rename_i range heq
      dsimp only [] at h
      split at h
      · rw [← Except.ok.inj h] at hcommit
        simp at hcommit
      · rename_i first rest hret
        split at h
        · rw [← Except.ok.inj h] at hcommit
          simp at hcommit
        · refine ⟨range, first, rest, heq, hret, ?_, ?_, ?_, ?_⟩ <;>
            rw [← Except.ok.inj h]

/-! ## Claim theorems -/

/-- C9: for every well-formed coverage list and every inserted interval with
`start ≤ end`, the list produced by `updateProcessedRanges` is again sorted
ascending by start, pairwise non-overlapping and non-adjacent (ranges within
distance 1 are merged), its covered set is exactly the previous covered set
united with the inserted interval, and coverage never shrinks. -/
theorem updateProcessedRanges_invariant (L : List ProcessedRange) (s e : Int)
    (hL : wfB L = true) (hse : s ≤ e) :
    wfB (updateProcessedRanges L s e) = true
    ∧ (∀ n : Int, memB (updateProcessedRanges L s e) n = true ↔
        (memB L n = true ∨ (s ≤ n ∧ n ≤ e)))
    ∧ (∀ n : Int, memB L n = true → memB (updateProcessedRanges L s e) n = true) := by
  have hp := wfB_properB L hL
  have hmem := memB_updateProcessedRanges L s e hp hse
  refine ⟨wfB_updateProcessedRanges L s e hp hse, fun n => ?_, fun n hn => ?_⟩
  · rw [hmem n, Bool.or_eq_true, decide_eq_true_eq]
  · rw [hmem n, hn, Bool.true_or]

/-- Witness for C9 at a concrete input. -/
theorem updateProcessedRanges_invariant_witness :
    (wfB [⟨1, 3⟩, ⟨7, 9⟩] = true ∧ (4 : Int) ≤ 5) ∧
    (wfB (updateProcessedRanges [⟨1, 3⟩, ⟨7, 9⟩] 4 5) = true
     ∧ (∀ n : Int, memB (updateProcessedRanges [⟨1, 3⟩, ⟨7, 9⟩] 4 5) n = true ↔
         (memB [⟨1, 3⟩, ⟨7, 9⟩] n = true ∨ (4 ≤ n ∧ n ≤ 5)))
     ∧ (∀ n : Int, memB [⟨1, 3⟩, ⟨7, 9⟩] n = true →
         memB (updateProcessedRanges [⟨1, 3⟩, ⟨7, 9⟩] 4 5) n = true)) :=
  ⟨by decide, updateProcessedRanges_invariant [⟨1, 3⟩, ⟨7, 9⟩] 4 5 (by decide) (by decide)⟩

/-- C8: `updateProcessedRanges` is idempotent and commutative over
overlapping and duplicate intervals on well-formed lists, and any sequence of
proper inserts whose union is exactly `[0, K]` converges, starting from empty
coverage, to the single interval `[0, K]`. -/
theorem updateProcessedRanges_algebra :
    (∀ (L : List ProcessedRange) (s e : Int), wfB L = true → s ≤ e →
      updateProcessedRanges (updateProcessedRanges L s e) s e =
        updateProcessedRanges L s e)
    ∧ (∀ (L : List ProcessedRange) (s e s' e' : Int), wfB L = true → s ≤ e → s' ≤ e' →
      updateProcessedRanges (updateProcessedRanges L s e) s' e' =
        updateProcessedRanges (updateProcessedRanges L s' e') s e)
    ∧ (∀ (ps : List (Int × Int)) (K : Int), 0 ≤ K →
      (∀ p ∈ ps, p.1 ≤ p.2) →
      (∀ n : Int, memPairs ps n = true ↔ (0 ≤ n ∧ n ≤ K)) →
      insertAll [] ps = [⟨0, K⟩]) := by
  refine ⟨?_, ?_, ?_⟩
  · intro L s e hL hse
    have hp := wfB_properB L hL
    have h1 := wfB_updateProcessedRanges L s e hp hse
    have h2 := wfB_updateProcessedRanges _ s e (wfB_properB _ h1) hse
    refine wfB_memB_unique _ _ h2 h1 (fun n => ?_)
    rw [memB_updateProcessedRanges _ s e (wfB_properB _ h1) hse n,
      memB_updateProcessedRanges L s e hp hse n, Bool.or_assoc, Bool.or_self]
  · intro L s e s' e' hL hse hse'
    have hp := wfB_properB L hL
    have h1 := wfB_updateProcessedRanges L s e hp hse
    have h1' := wfB_updateProcessedRanges L s' e' hp hse'
    have h2 := wfB_updateProcessedRanges _ s' e' (wfB_properB _ h1) hse'
    have h2' := wfB_updateProcessedRanges _ s e (wfB_properB _ h1') hse
    refine wfB_memB_unique _ _ h2 h2' (fun n => ?_)
    rw [memB_updateProcessedRanges _ s' e' (wfB_properB _ h1) hse' n,
      memB_updateProcessedRanges L s e hp hse n,
      memB_updateProcessedRanges _ s e (wfB_properB _ h1') hse n,
      memB_updateProcessedRanges L s' e' hp hse' n,
      Bool.or_assoc, Bool.or_assoc, Bool.or_comm (decide (s ≤ n ∧ n ≤ e))]
  · intro ps K hK hps hcov
    obtain ⟨hwf, hmem⟩ := insertAll_props ps [] rfl hps
    refine wfB_memB_unique _ _ hwf ?_ (fun n => ?_)
    · simp [wfB, sepHead, hK]
    · rw [hmem n, memB_nil, Bool.false_or, memB_cons, memB_nil, Bool.or_false]
      rw [Bool.eq_iff_iff, decide_eq_true_eq]
      exact (hcov n).trans (by constructor <;> (intro h; exact h))

/-- Witness for C8 at concrete inputs. -/
theorem updateProcessedRanges_algebra_witness :
    (wfB [⟨1, 3⟩] = true ∧ (5 : Int) ≤ 6 ∧ (2 : Int) ≤ 4 ∧ (0 : Int) ≤ 4
      ∧ (∀ p ∈ [((2 : Int), (4 : Int)), (0, 2)], p.1 ≤ p.2)
      ∧ (∀ n : Int, memPairs [(2, 4), (0, 2)] n = true ↔ (0 ≤ n ∧ n ≤ 4)))
    ∧ updateProcessedRanges (updateProcessedRanges [⟨1, 3⟩] 5 6) 5 6 =
        updateProcessedRanges [⟨1, 3⟩] 5 6
    ∧ updateProcessedRanges (updateProcessedRanges [⟨1, 3⟩] 5 6) 2 4 =
        updateProcessedRanges (updateProcessedRanges [⟨1, 3⟩] 2 4) 5 6
    ∧ insertAll [] [(2, 4), (0, 2)] = [⟨0, 4⟩] := by
  refine ⟨⟨by decide, by decide, by decide, by decide, by decide, ?_⟩, ?_, ?_, ?_⟩
  · intro n
    simp only [memPairs, List.any_cons, List.any_nil, Bool.or_false, Bool.or_eq_true,
      decide_eq_true_eq]
    omega
  · exact updateProcessedRanges_algebra.1 [⟨1, 3⟩] 5 6 (by decide) (by decide)
  · exact updateProcessedRanges_algebra.2.1 [⟨1, 3⟩] 5 6 2 4 (by decide) (by decide) (by decide)
  · refine updateProcessedRanges_algebra.2.2 [(2, 4), (0, 2)] 4 (by decide) (by decide) ?_
    intro n
    simp only [memPairs, List.any_cons, List.any_nil, Bool.or_false, Bool.or_eq_true,
      decide_eq_true_eq]
    omega

/-- C2 counterexample: on the single interval `[0, 10]` — which starts at 0,
so the claim says there is no gap — `findRangeToProcess` instead throws
`'Unexpected value'`.  Moreover with the three intervals
`[2,5], [10,15], [20,25]` the function returns the gap `(15, 20)` between the
two intervals nearest the newest data, although the uncovered point `6` lies
strictly below that gap, so the returned gap is not the lowest not-yet-covered
interval. -/
theorem findRangeToProcess_cex :
    findRangeToProcess [⟨0, 10⟩] = .error "Unexpected value"
    ∧ findRangeToProcess [⟨2, 5⟩, ⟨10, 15⟩, ⟨20, 25⟩] = .ok (some ⟨15, 20⟩)
    ∧ memB [⟨2, 5⟩, ⟨10, 15⟩, ⟨20, 25⟩] 6 = false ∧ (6 : Int) < 15 := by
  refine ⟨by decide, by decide, by decide, by decide⟩

/-- C2 amended: `findRangeToProcess` picks the gap nearest the newest data
(between the two intervals with the highest starts), not the gap nearest the
origin: the empty list yields `[0, MAX_SAFE_INTEGER]`; a last interval
starting at 1 yields no gap; a last interval starting at 0 throws
`'Unexpected value'`; with at least two intervals the gap runs from the end of
the second-to-last interval to the start of the last one; with a single
interval starting above 1 the gap is `[0, start]`. -/
theorem findRangeToProcess_spec :
    findRangeToProcess [] = .ok (some ⟨0, maxSafeInteger⟩)
    ∧ (∀ (rs : List ProcessedRange) (r : ProcessedRange), r.start = 1 →
        findRangeToProcess (rs ++ [r]) = .ok none)
    ∧ (∀ (rs : List ProcessedRange) (r : ProcessedRange), r.start = 0 →
        findRangeToProcess (rs ++ [r]) = .error "Unexpected value")
    ∧ (∀ (rs : List ProcessedRange) (q r : ProcessedRange),
        r.start ≠ 0 → r.start ≠ 1 →
        findRangeToProcess (rs ++ [q, r]) = .ok (some ⟨q.stop, r.start⟩))
    ∧ (∀ r : ProcessedRange, r.start ≠ 0 → r.start ≠ 1 →
        findRangeToProcess [r] = .ok (some ⟨0, r.start⟩)) := by
  refine ⟨rfl, ?_, ?_, ?_, ?_⟩
  · intro rs r h1
    unfold findRangeToProcess
    rw [List.getLast?_concat]
    simp [h1]
  · intro rs r h0
    unfold findRangeToProcess
    rw [List.getLast?_concat]
    simp [h0]
  · intro rs q r h0 h1
    have h : rs ++ [q, r] = (rs ++ [q]) ++ [r] := by simp
    rw [h]
    unfold findRangeToProcess
    rw [List.getLast?_concat, List.dropLast_concat, List.getLast?_concat]
    simp [h0, h1]
  · intro r h0 h1
    unfold findRangeToProcess
    simp [h0, h1, List.getLast?]

/-- C4: starting from empty coverage, in every state reachable via the live
path (`handleNewEvent` on events with `localId ≥ 1`) and the catch-up path
(`processEvents`), every stored coverage range has `start ≥ 1`; consequently
`isFullyCovered` is false in every reachable state (no tick from a reachable
state stops the timer through the fully-covered check) and the
`'Unexpected value'` error branch of `findRangeToProcess` is unreachable. -/
theorem reachable_coverage_invariant (rs : List ProcessedRange)
    (h : ReachableCov rs) :
    (∀ r ∈ rs, 1 ≤ r.start)
    ∧ isFullyCovered rs = false
    ∧ (∃ o, findRangeToProcess rs = .ok o)
    ∧ (∀ {V A Agg : Type} (fold : Agg → StoredEvent V → Except Unit (Agg × Option A))
        (b : Int) (log : List (StoredEvent V)) (p : List ProcessedRange) (agg : Agg)
        (t : TickResult V A Agg),
        processEvents true fold b log rs p agg = .ok t → t.stopped = false) := by
  have hstarts := reachable_starts rs h
  obtain ⟨hfc, hfr⟩ := starts_pos_conclusions rs hstarts
  exact ⟨hstarts, hfc, hfr,
    fun fold b log p agg t hok => processEvents_not_stopped fold b log rs p agg t hfc hok⟩

/-- C1 amended: on a committed catch-up tick that retrieved at least one
event, the batch is `first :: rest` (descending); when the retrieved count
equals the batch size, coverage advances to `[minRetrievedId, maxRetrievedId]`
only.  When the retrieved count is smaller than the batch size the code
advances to `[1, maxRetrievedId]` unconditionally; since the requested limit
is `min(batchSize, gapWidth)`, this inference is sound only when the gap width
is at least the batch size — in that case every log event with `localId ≤
maxRetrievedId` was folded in this very batch, so no never-folded event is
marked covered — whereas a gap narrower than the batch size triggers the same
advance without that guarantee (see the counterexample). -/
theorem processEvents_origin_inference {V A Agg : Type}
    (fold : Agg → StoredEvent V → Except Unit (Agg × Option A))
    (b : Int) (log : List (StoredEvent V)) (rs p : List ProcessedRange) (agg : Agg)
    (t : TickResult V A Agg) (range : ProcessedRange)
    (hok : processEvents true fold b log rs p agg = .ok t)
    (hcommit : t.committed = true)
    (hrange : findRangeToProcess rs = .ok (some range))
    (hproper : properB rs = true)
    (hlog : ∀ e2 ∈ log, 1 ≤ e2.localId) :
    ∃ (first : StoredEvent V) (rest : List (StoredEvent V)),
      t.folded = first :: rest
      ∧ (((first :: rest).length : Int) = b →
          t.ranges = updateProcessedRanges rs
            ((first :: rest).getLastD first).localId first.localId)
      ∧ (((first :: rest).length : Int) < b →
          t.ranges = updateProcessedRanges rs 1 first.localId
          ∧ (∀ n : Int, memB t.ranges n = true ↔
              (memB rs n = true ∨ (1 ≤ n ∧ n ≤ first.localId)))
          ∧ (b ≤ range.stop - range.start - 1 →
              ∀ e2 ∈ log, e2.localId ≤ first.localId → e2 ∈ t.folded)) := by
  obtain ⟨range', first, rest, hrange', hret, hfolded, _hnot, hranges, _hpers⟩ :=
    processEvents_committed_shape fold b log rs p agg t hok hcommit
  have hrr : range' = range := by
    rw [hrange'] at hrange
    exact Option.some.inj (Except.ok.inj hrange)
  rw [hrr] at hret
  have hfirst_log : first ∈ log := by
    refine mem_getEventsBefore log range.stop
      (min b (range.stop - range.start - 1)) first ?_
    rw [hret]
    exact List.mem_cons_self _ _
  have hfirst_pos : (1 : Int) ≤ first.localId := hlog first hfirst_log
  refine ⟨first, rest, hfolded, ?_, ?_⟩
  · intro heq
    rw [hranges, if_neg (by omega)]
  · intro hlt
    have hr1 : t.ranges = updateProcessedRanges rs 1 first.localId := by
      rw [hranges, if_pos hlt]
    refine ⟨hr1, ?_, ?_⟩
    · intro n
      rw [hr1, memB_updateProcessedRanges rs 1 first.localId hproper hfirst_pos n,
        Bool.or_eq_true, decide_eq_true_eq]
    · intro hb e2 he2 hle
      have hbpos : 0 < b := by
        have : (0 : Int) ≤ ((first :: rest).length : Int) := Int.ofNat_nonneg _
        omega
      have hmin : min b (range.stop - range.start - 1) = b := min_eq_left hb
      rw [hmin] at hret
      unfold getEventsBefore applyLimit at hret
      rw [if_neg (by omega), if_neg (by omega)] at hret
      have hlenNat : (first :: rest).length < b.toNat := by omega
      have h2 : ((log.filter (fun e3 => decide (e3.localId < range.stop))).reverse).length
          < b.toNat := by
        have h2' := congrArg List.length hret
        rw [List.length_take] at h2'
        omega
      have hall : (log.filter (fun e3 => decide (e3.localId < range.stop))).reverse
          = first :: rest := by
        rw [← List.take_of_length_le (le_of_lt h2), hret]
      have hfirst_lt : first.localId < range.stop := by
        have : first ∈ (log.filter (fun e3 => decide (e3.localId < range.stop))).reverse := by
          rw [hall]; exact List.mem_cons_self _ _
        rw [List.mem_reverse, List.mem_filter] at this
        exact of_decide_eq_true this.2
      have he2f : e2 ∈ (log.filter (fun e3 => decide (e3.localId < range.stop))).reverse := by
        rw [List.mem_reverse, List.mem_filter]
        exact ⟨he2, decide_eq_true (by omega)⟩
      rw [hall] at he2f
      rw [hfolded]
      exact he2f

/-- C1 counterexample: the coverage `[4,4], [6,6]` is reachable (live folds of
events 4 and 6, the live fold of event 5 failed and left no trace).  A
catch-up tick with batch size 100 on a log holding events 1..6 then computes
the gap `(4, 6)`, requests at most `min(100, 1) = 1` event, retrieves exactly
event 5 — one event, fewer than the batch size — and advances coverage to
`[1, 6]`.  Yet the log event with `localId = 1` lies below the minimum
retrieved id `5`, was not covered before the tick, and was not folded by the
tick: the origin had not been reached and an event is marked covered that was
never folded, refuting the claim. -/
theorem processEvents_origin_inference_cex :
    ReachableCov [⟨4, 4⟩, ⟨6, 6⟩]
    ∧ processEvents true
        (fun (_ : Unit) (_ : StoredEvent Unit) => Except.ok ((), (none : Option Unit))) 100
        [⟨1, "g1", ()⟩, ⟨2, "g2", ()⟩, ⟨3, "g3", ()⟩, ⟨4, "g4", ()⟩, ⟨5, "g5", ()⟩, ⟨6, "g6", ()⟩]
        [⟨4, 4⟩, ⟨6, 6⟩] [⟨4, 4⟩, ⟨6, 6⟩] ()
      = .ok ⟨false, [⟨1, 6⟩], [⟨1, 6⟩], (), [], [⟨5, "g5", ()⟩], true, false⟩
    ∧ ((([⟨5, "g5", ()⟩] : List (StoredEvent Unit)).length : Int) < 100)
    ∧ memB [⟨4, 4⟩, ⟨6, 6⟩] 1 = false
    ∧ memB [⟨1, 6⟩] 1 = true
    ∧ (⟨1, "g1", ()⟩ : StoredEvent Unit) ∉ [(⟨5, "g5", ()⟩ : StoredEvent Unit)] := by
  refine ⟨?_, by decide, by decide, by decide, by decide, by decide⟩
  have h1 : ReachableCov [⟨4, 4⟩] :=
    ReachableCov.live
      (fun (_ : Unit) (_ : StoredEvent Unit) => Except.ok ((), (none : Option Unit)))
      ⟨4, "g4", ()⟩ [] [] () ⟨[⟨4, 4⟩], [⟨4, 4⟩], (), [], false⟩
      ReachableCov.origin (by decide) (by decide)
  exact ReachableCov.live
    (fun (_ : Unit) (_ : StoredEvent Unit) => Except.ok ((), (none : Option Unit)))
    ⟨6, "g6", ()⟩ [⟨4, 4⟩] [⟨4, 4⟩] () ⟨[⟨4, 4⟩, ⟨6, 6⟩], [⟨4, 4⟩, ⟨6, 6⟩], (), [], false⟩
    h1 (by decide) (by decide)

/-- Witness for the amended C1 at a concrete input: batch size 2 over a log
holding events 1..4 with prior coverage `[5,10]`; the tick retrieves events 4
and 3 — exactly the batch size — and advances coverage to `[3, 4]` merged with
`[5, 10]`. -/
theorem processEvents_origin_inference_witness :
    (processEvents true
        (fun (_ : Unit) (_ : StoredEvent Unit) => Except.ok ((), (none : Option Unit))) 2
        [⟨1, "g1", ()⟩, ⟨2, "g2", ()⟩, ⟨3, "g3", ()⟩, ⟨4, "g4", ()⟩]
        [⟨5, 10⟩] [⟨5, 10⟩] ()
      = .ok ⟨false, [⟨3, 10⟩], [⟨3, 10⟩], (), [],
          [⟨4, "g4", ()⟩, ⟨3, "g3", ()⟩], true, false⟩)
    ∧ (∃ (first : StoredEvent Unit) (rest : List (StoredEvent Unit)),
        [(⟨4, "g4", ()⟩ : StoredEvent Unit), ⟨3, "g3", ()⟩] = first :: rest
        ∧ (((first :: rest).length : Int) = 2 →
            [(⟨3, 10⟩ : ProcessedRange)] = updateProcessedRanges [⟨5, 10⟩]
              ((first :: rest).getLastD first).localId first.localId)
        ∧ (((first :: rest).length : Int) < 2 →
            [(⟨3, 10⟩ : ProcessedRange)] = updateProcessedRanges [⟨5, 10⟩] 1 first.localId
            ∧ (∀ n : Int, memB [(⟨3, 10⟩ : ProcessedRange)] n = true ↔
                (memB [⟨5, 10⟩] n = true ∨ (1 ≤ n ∧ n ≤ first.localId)))
            ∧ ((2 : Int) ≤ (5 : Int) - 0 - 1 →
                ∀ e2 ∈ [(⟨1, "g1", ()⟩ : StoredEvent Unit), ⟨2, "g2", ()⟩,
                    ⟨3, "g3", ()⟩, ⟨4, "g4", ()⟩],
                  e2.localId ≤ first.localId →
                  e2 ∈ [(⟨4, "g4", ()⟩ : StoredEvent Unit), ⟨3, "g3", ()⟩]))) := by
  refine ⟨by decide, ?_⟩
  exact processEvents_origin_inference
    (fun (_ : Unit) (_ : StoredEvent Unit) => Except.ok ((), (none : Option Unit))) 2
    [⟨1, "g1", ()⟩, ⟨2, "g2", ()⟩, ⟨3, "g3", ()⟩, ⟨4, "g4", ()⟩]
    [⟨5, 10⟩] [⟨5, 10⟩] ()
    ⟨false, [⟨3, 10⟩], [⟨3, 10⟩], (), [], [⟨4, "g4", ()⟩, ⟨3, "g3", ()⟩], true, false⟩
    ⟨0, 5⟩ (by decide) (by decide) (by decide) (by decide) (by decide)

/-- C3 (evidence of the code bug): in the source, the
`notifyListeners(changedItems)` call on line 217 sits after the `return`
statement of the `try` block and therefore runs only when the `catch` branch
was taken.  First conjunct: a fully successful committed batch of three events
whose folds all return non-null results emits NO notifications (`notified =
[]`), against the claimed one-notification-per-non-null-result.  Second
conjunct: when the fold of event 2 throws, the transaction aborts — persisted
coverage and aggregate state indeed unchanged — but the fold result collected
for event 3 before the failure IS passed to `notifyListeners`
(`notified = [3]`), so listeners observe a change of an aborted batch. -/
theorem processEvents_notification_eval :
    processEvents true
      (fun (_ : Unit) (e2 : StoredEvent Unit) => Except.ok ((), some e2.localId)) 100
      [⟨1, "g1", ()⟩, ⟨2, "g2", ()⟩, ⟨3, "g3", ()⟩] [⟨5, 5⟩] [⟨5, 5⟩] ()
      = .ok ⟨false, [⟨1, 3⟩, ⟨5, 5⟩], [⟨1, 3⟩, ⟨5, 5⟩], (), [],
          [⟨3, "g3", ()⟩, ⟨2, "g2", ()⟩, ⟨1, "g1", ()⟩], true, false⟩
    ∧ processEvents true
      (fun (_ : Unit) (e2 : StoredEvent Unit) =>
        if e2.localId = 2 then Except.error () else Except.ok ((), some e2.localId)) 100
      [⟨1, "g1", ()⟩, ⟨2, "g2", ()⟩, ⟨3, "g3", ()⟩] [⟨5, 5⟩] [⟨5, 5⟩] ()
      = .ok ⟨false, [⟨5, 5⟩], [⟨5, 5⟩], (), [3], [⟨3, "g3", ()⟩], false, true⟩ :=
  ⟨by decide, by decide⟩

/-- C5: on a live-path fold failure (the injected `processEvent` throws for
the pushed event) the engine logs the error and aborts the transaction:
the in-memory coverage list, the persisted coverage list and the aggregate
store are all unchanged and no notification is delivered.  The returned
outcome carries no retry: the live path runs `handleNewEvent` exactly once
per broadcast event, so the event is left uncovered for the catch-up path. -/
theorem handleNewEvent_fold_failure {V A Agg : Type}
    (fold : Agg → StoredEvent V → Except Unit (Agg × Option A))
    (ev : StoredEvent V) (rs p : List ProcessedRange) (agg : Agg)
    (hfail : fold agg ev = .error ()) :
    handleNewEvent true fold ev rs p agg = .ok ⟨rs, p, agg, [], true⟩ := by
  unfold handleNewEvent
  rw [if_neg (by decide), hfail]

/-- Witness for C5 at a concrete input with an always-throwing fold. -/
theorem handleNewEvent_fold_failure_witness :
    ((fun (_ : Unit) (_ : StoredEvent Unit) =>
        (Except.error () : Except Unit (Unit × Option Unit))) () ⟨1, "g", ()⟩ = .error ())
    ∧ handleNewEvent true
        (fun (_ : Unit) (_ : StoredEvent Unit) =>
          (Except.error () : Except Unit (Unit × Option Unit)))
        ⟨1, "g", ()⟩ [⟨5, 5⟩] [⟨5, 5⟩] ()
      = .ok ⟨[⟨5, 5⟩], [⟨5, 5⟩], (), [], true⟩ :=
  ⟨rfl, handleNewEvent_fold_failure _ _ _ _ _ rfl⟩

/-- C6 counterexample: the trace of an `add` whose `store.add` request
succeeds but whose transaction later aborts contains the subscriber
notification and the abort, and no commit — the subscriber was notified of an
event whose persisting transaction never committed.  In the fully successful
trace the notification and the promise resolution also precede the commit. -/
theorem addTrace_cex :
    (AppendAction.notifySubscribers (⟨1, "g", ()⟩ : StoredEvent Unit) ∈
        addTrace true false ⟨1, "g", ()⟩
      ∧ AppendAction.txCommitted ∉ addTrace true false (⟨1, "g", ()⟩ : StoredEvent Unit)
      ∧ AppendAction.txAborted ∈ addTrace true false (⟨1, "g", ()⟩ : StoredEvent Unit))
    ∧ addTrace true true (⟨1, "g", ()⟩ : StoredEvent Unit)
      = [.notifySubscribers ⟨1, "g", ()⟩, .promiseResolved, .txCommitted] := by
  refine ⟨⟨by decide, by decide, by decide⟩, by decide⟩

/-- C6 amended: subscribers are invoked synchronously as soon as the
`store.add` request succeeds — the notification is the first observable
action of the call, before the transaction outcome is known — and never when
the request fails; the returned promise also settles before the transaction
outcome, and when the transaction aborts after a successful request the
subscribers have already been notified. -/
theorem addTrace_spec {V : Type} (ev : StoredEvent V) :
    (∀ commit : Bool,
      (addTrace true commit ev).head? = some (.notifySubscribers ev))
    ∧ (∀ commit : Bool,
      AppendAction.notifySubscribers ev ∉ addTrace false commit ev)
    ∧ (AppendAction.txAborted ∈ addTrace true false ev
       ∧ AppendAction.notifySubscribers ev ∈ addTrace true false ev
       ∧ AppendAction.txCommitted ∉ addTrace true false ev) := by
  refine ⟨fun commit => ?_, fun commit => ?_, ?_, ?_, ?_⟩
  · cases commit <;> rfl
  · simp [addTrace]
  · simp [addTrace]
  · simp [addTrace]
  · simp [addTrace]

/-- C7: when the freshly generated `globalId` collides with the `globalId` of
a stored record, the unique index makes the `add` request fail: the promise
rejects with `Add error`, no record is stored, no broadcast reaches the
aggregator, and no coverage advances — the composite system state is entirely
unchanged. -/
theorem add_globalId_collision {V A Agg : Type}
    (fold : Agg → StoredEvent V → Except Unit (Agg × Option A))
    (st : SystemState V Agg) (gid : String) (v : V)
    (log : List (StoredEvent V)) (nextId : Int)
    (hdb : st.store.db = some (log, nextId))
    (hcol : ∃ e2 ∈ log, e2.globalId = gid) :
    EventStore.add st.store gid v = .error "Add error"
    ∧ systemAppend fold st gid v = (st, false) := by
  have hadd : EventStore.add st.store gid v = .error "Add error" := by
    unfold EventStore.add
    rw [hdb]
    dsimp only
    rw [if_pos ?_]
    obtain ⟨e2, he2, hgid⟩ := hcol
    exact List.any_eq_true.mpr ⟨e2, he2, decide_eq_true hgid⟩
  refine ⟨hadd, ?_⟩
  unfold systemAppend
  rw [hadd]

/-- Witness for C7 at a concrete input: the store already holds a record with
`globalId = "dup"` and `add` draws `"dup"` again. -/
theorem add_globalId_collision_witness :
    ((⟨⟨some ([⟨1, "dup", ()⟩], 2), []⟩, true, [], [], ()⟩ :
        SystemState Unit Unit).store.db = some ([⟨1, "dup", ()⟩], 2)
      ∧ ∃ e2 ∈ [(⟨1, "dup", ()⟩ : StoredEvent Unit)], e2.globalId = "dup")
    ∧ EventStore.add (⟨some ([⟨1, "dup", ()⟩], 2), []⟩ : EventStoreState Unit) "dup" ()
        = .error "Add error"
    ∧ systemAppend
        (fun (_ : Unit) (_ : StoredEvent Unit) => Except.ok ((), (none : Option Unit)))
        (⟨⟨some ([⟨1, "dup", ()⟩], 2), []⟩, true, [], [], ()⟩ : SystemState Unit Unit)
        "dup" ()
        = (⟨⟨some ([⟨1, "dup", ()⟩], 2), []⟩, true, [], [], ()⟩, false) := by
  refine ⟨⟨by decide, by decide⟩, ?_, ?_⟩
  · exact (add_globalId_collision
      (fun (_ : Unit) (_ : StoredEvent Unit) => Except.ok ((), (none : Option Unit)))
      ⟨⟨some ([⟨1, "dup", ()⟩], 2), []⟩, true, [], [], ()⟩ "dup" ()
      [⟨1, "dup", ()⟩] 2 rfl ⟨⟨1, "dup", ()⟩, by decide⟩).1
  · exact (add_globalId_collision
      (fun (_ : Unit) (_ : StoredEvent Unit) => Except.ok ((), (none : Option Unit)))
      ⟨⟨some ([⟨1, "dup", ()⟩], 2), []⟩, true, [], [], ()⟩ "dup" ()
      [⟨1, "dup", ()⟩] 2 rfl ⟨⟨1, "dup", ()⟩, by decide⟩).2

/-- C10 counterexample: `subscribe` on a disposed aggregator (and on a
disposed store) does not fail fast — it silently succeeds and registers the
listener, refuting "every subsequent operation fails fast with a usage
fault". -/
theorem dispose_subscribe_cex :
    (EventAggregator.subscribe (EventAggregator.dispose
        (⟨true, [⟨1, 1⟩], [⟨1, 1⟩], (), [7], true⟩ : AggregatorState Unit)) 9).listeners = [9]
    ∧ (EventStore.subscribe (EventStore.dispose
        (⟨some ([], 1), [7]⟩ : EventStoreState Unit)) 9).listeners = [9] := by
  refine ⟨by decide, by decide⟩

/-- C10 amended: `dispose` closes the database handle and clears the listener
set.  Afterwards every storage-backed operation — `handleNewEvent`,
`processEvents` on the aggregator; `add`, `getEventsBefore`, `hasAnyRecord`
on the store — fails fast with `Database not initialized`, and no listener
registered before disposal is ever invoked again (all notification fan-outs
deliver to nobody).  `subscribe` (as well as `startProcessing` and
`stopProcessing`) is not guarded, however: it still succeeds silently. -/
theorem dispose_spec {V A Agg : Type} (s : AggregatorState Agg)
    (st : EventStoreState V) :
    (EventAggregator.dispose s).listeners = []
    ∧ (EventAggregator.dispose s).dbOpen = false
    ∧ (∀ changes : List A,
        EventAggregator.notifyDeliveries (EventAggregator.dispose s) changes = [])
    ∧ (∀ (fold : Agg → StoredEvent V → Except Unit (Agg × Option A))
        (ev : StoredEvent V) (rs p : List ProcessedRange) (agg : Agg),
        handleNewEvent (EventAggregator.dispose s).dbOpen fold ev rs p agg
          = .error "Database not initialized")
    ∧ (∀ (fold : Agg → StoredEvent V → Except Unit (Agg × Option A))
        (b : Int) (log : List (StoredEvent V)) (rs p : List ProcessedRange) (agg : Agg),
        processEvents (EventAggregator.dispose s).dbOpen fold b log rs p agg
          = .error "Database not initialized")
    ∧ (EventStore.dispose st).listeners = []
    ∧ (∀ (gid : String) (v : V),
        EventStore.add (EventStore.dispose st) gid v = .error "Database not initialized")
    ∧ (∀ i lim : Int,
        EventStore.getEventsBeforeOp (EventStore.dispose st) i lim
          = .error "Database not initialized")
    ∧ EventStore.hasAnyRecord (EventStore.dispose st) = .error "Database not initialized"
    ∧ (∀ ev : StoredEvent V, EventStore.deliveries (EventStore.dispose st) ev = [])
    ∧ (∀ l : Nat,
        (EventAggregator.subscribe (EventAggregator.dispose s) l).listeners = [l]) := by
  refine ⟨rfl, rfl, fun changes => ?_, fun fold ev rs p agg => rfl,
    fun fold b log rs p agg => rfl, rfl, fun gid v => rfl, fun i lim => rfl, rfl,
    fun ev => rfl, fun l => ?_⟩
  · simp [EventAggregator.notifyDeliveries, EventAggregator.dispose]
  · simp [EventAggregator.subscribe, EventAggregator.dispose]

/-- Witness for C4 at a concrete reachable state (empty coverage advanced by
one live event with `localId = 3`). -/
theorem reachable_coverage_invariant_witness :
    ReachableCov [⟨3, 3⟩]
    ∧ (∀ r ∈ [(⟨3, 3⟩ : ProcessedRange)], 1 ≤ r.start)
    ∧ isFullyCovered [⟨3, 3⟩] = false
    ∧ (∃ o, findRangeToProcess [⟨3, 3⟩] = .ok o) := by
  have hreach : ReachableCov [⟨3, 3⟩] :=
    ReachableCov.live (fun (_ : Unit) (_ : StoredEvent Unit) => Except.ok ((), (none : Option Unit)))
      ⟨3, "g", ()⟩ [] [] () ⟨[⟨3, 3⟩], [⟨3, 3⟩], (), [], false⟩
      ReachableCov.origin (by decide) (by decide)
  obtain ⟨h1, h2, h3, _⟩ := reachable_coverage_invariant [⟨3, 3⟩] hreach
  exact ⟨hreach, h1, h2, h3⟩

/-- Witness for the amended C2 at concrete inputs. -/
theorem findRangeToProcess_spec_witness :
    ((1 : Int) = 1 ∧ (0 : Int) = 0 ∧ (5 : Int) ≠ 0 ∧ (5 : Int) ≠ 1)
    ∧ findRangeToProcess [⟨1, 9⟩] = .ok none
    ∧ findRangeToProcess [⟨0, 9⟩] = .error "Unexpected value"
    ∧ findRangeToProcess [⟨2, 3⟩, ⟨5, 9⟩] = .ok (some ⟨3, 5⟩)
    ∧ findRangeToProcess [⟨5, 9⟩] = .ok (some ⟨0, 5⟩) :=
  ⟨by decide,
   findRangeToProcess_spec.2.1 [] ⟨1, 9⟩ rfl,
   findRangeToProcess_spec.2.2.1 [] ⟨0, 9⟩ rfl,
   findRangeToProcess_spec.2.2.2.1 [] ⟨2, 3⟩ ⟨5, 9⟩ (by decide) (by decide),
   findRangeToProcess_spec.2.2.2.2 ⟨5, 9⟩ (by decide) (by decide)⟩
